import Mathlib

/-!
Verification of the classical arithmetic core of the repository: brute-force
period finding (`find_period_classical`), the incremental Sieve of
Eratosthenes (`sieve` / `get_primes_sieve`), the semiprime generator
(`get_semiprime`), and the classical factor-recovery post-processing step of
Shor's algorithm (described in the repository only in prose).

The Python code is shallowly embedded over `Nat`.  The unbounded `while` loop
of `find_period_classical` is embedded with an explicit fuel parameter that
bounds the number of evaluations of the loop condition `t != 1`; the lazy
generator `sieve` is embedded as a step function on an explicit state
(candidate counter, tracking map, output list), and `get_primes_sieve n` runs
`n` steps of that generator, which covers every odd candidate up to `2*n + 1`
and hence every prime below `n`, before applying the source's take-while.
-/

namespace QCFS

/-- One execution of the loop body of `find_period_classical`:
`t *= x; t %= N`. -/
def pstep (x N t : Nat) : Nat := (t * x) % N

/-- `iterT x N t k` is the running product `t` after `k` executions of the
loop body, starting from the value `t`. -/
def iterT (x N t : Nat) : Nat → Nat
  | 0 => t
  | k + 1 => pstep x N (iterT x N t k)

/-- The `while t != 1` loop of `find_period_classical`, with fuel bounding the
number of evaluations of the loop condition.  `t` is the running product and
`n` the iteration counter; returns `some n` as the source's `return n` when
the condition fails, `none` when the fuel is exhausted first. -/
def fpcGo (x N : Nat) : Nat → Nat → Nat → Option Nat
  | 0, _, _ => none
  | fuel + 1, t, n => if t = 1 then some n else fpcGo x N fuel (pstep x N t) (n + 1)

/-- `find_period_classical(x, N)` from the source: `n = 1; t = x;
while t != 1: t *= x; t %= N; n += 1; return n`, run with the given fuel. -/
def find_period_classical (x N : Nat) (fuel : Nat) : Option Nat :=
  fpcGo x N fuel x 1

theorem iterT_shift (x N t k : Nat) :
    iterT x N (pstep x N t) k = iterT x N t (k + 1) := by
  induction k with
  | zero => rfl
  | succ k ih => simp only [iterT, ih]

theorem iterT_pow (x N : Nat) : ∀ k, 1 ≤ k → iterT x N x k = x ^ (k + 1) % N := by
  intro k hk
  induction k with
  | zero => omega
  | succ k ih =>
    rcases Nat.eq_or_lt_of_le hk with h1 | h1
    · have hk0 : k = 0 := by omega
      subst hk0
      show (x * x) % N = x ^ 2 % N
      rw [pow_two]
    · have hk1 : 1 ≤ k := by omega
      show pstep x N (iterT x N x k) = x ^ (k + 2) % N
      rw [ih hk1]
      show x ^ (k + 1) % N * x % N = x ^ (k + 2) % N
      rw [Nat.mod_mul_mod, ← pow_succ]

theorem fpcGo_some (x N : Nat) :
    ∀ fuel k t n, k < fuel → iterT x N t k = 1 →
      (∀ j, j < k → iterT x N t j ≠ 1) →
      fpcGo x N fuel t n = some (n + k) := by
  intro fuel
  induction fuel with
  | zero => intro k t n h; omega
  | succ fuel ih =>
    intro k t n hk hhit hmin
    cases k with
    | zero =>
      have ht : t = 1 := hhit
      simp [fpcGo, ht]
    | succ k =>
      have ht : t ≠ 1 := hmin 0 (Nat.succ_pos k)
      have hstep : fpcGo x N fuel (pstep x N t) (n + 1) = some (n + 1 + k) := by
        apply ih k (pstep x N t) (n + 1) (by omega)
        · rw [iterT_shift]; exact hhit
        · intro j hj
          rw [iterT_shift]
          exact hmin (j + 1) (by omega)
      simp only [fpcGo, if_neg ht, hstep]
      congr 1
      omega

theorem fpcGo_none (x N : Nat) :
    ∀ fuel t n, (∀ j, iterT x N t j ≠ 1) → fpcGo x N fuel t n = none := by
  intro fuel
  induction fuel with
  | zero => intro t n _; rfl
  | succ fuel ih =>
    intro t n hmiss
    have ht : t ≠ 1 := hmiss 0
    simp only [fpcGo, if_neg ht]
    apply ih
    intro j
    rw [iterT_shift]
    exact hmiss (j + 1)

/-- Euler: a base coprime to `N > 1` has a positive power congruent to 1. -/
theorem exists_pow_mod_one (x N : Nat) (hN : 1 < N) (hg : Nat.gcd x N = 1) :
    ∃ r, 0 < r ∧ x ^ r % N = 1 := by
  have hco : Nat.Coprime x N := hg
  have h := Nat.ModEq.pow_totient hco
  have h1 : x ^ Nat.totient N % N = 1 % N := h
  rw [Nat.mod_eq_of_lt hN] at h1
  exact ⟨Nat.totient N, Nat.totient_pos.mpr (by omega), h1⟩

/-- Modelled from the spec: the FactorRecoverer component has no implementing
code in the repository (the notebook describes it only in a markdown cell);
`y = x^(r/2) mod N` is the candidate square root of 1 computed from the
period `r`. -/
def recover_y (x N r : Nat) : Nat := x ^ (r / 2) % N

/-- Modelled from the spec: the divisor candidate `d₊ = gcd(y − 1, N)` of the
FactorRecoverer. -/
def recover_dplus (x N r : Nat) : Nat := Nat.gcd (recover_y x N r - 1) N

/-- Modelled from the spec: the divisor candidate `d₋ = gcd(y + 1, N)` of the
FactorRecoverer. -/
def recover_dminus (x N r : Nat) : Nat := Nat.gcd (recover_y x N r + 1) N

/-- A power `x^m` with `m ≥ 1` is never 1 modulo `N` when `x` and `N` share a
factor. -/
theorem pow_mod_ne_one_of_gcd_ne_one (x N k : Nat) (hN : 1 < N)
    (hg : Nat.gcd x N ≠ 1) : x ^ (k + 1) % N ≠ 1 := by
  intro h
  have hdx : Nat.gcd x N ∣ x ^ (k + 1) :=
    dvd_pow (Nat.gcd_dvd_left x N) (Nat.succ_ne_zero k)
  have hdN : Nat.gcd x N ∣ N := Nat.gcd_dvd_right x N
  have hdecomp : x ^ (k + 1) = N * (x ^ (k + 1) / N) + 1 := by
    conv_lhs => rw [← Nat.div_add_mod (x ^ (k + 1)) N]
    rw [h]
  have hd1 : Nat.gcd x N ∣ 1 := by
    have hmul : Nat.gcd x N ∣ N * (x ^ (k + 1) / N) := hdN.mul_right _
    rw [hdecomp] at hdx
    have hsub := Nat.dvd_sub' hdx hmul
    rwa [Nat.add_sub_cancel_left] at hsub
  exact hg (Nat.eq_one_of_dvd_one hd1)

/-- C1 (counterexample): the claim as stated fails for bases `x ≥ N`.  At
`x = 6`, `N = 5` (which satisfy `2 ≤ x`, `N > 1`, `gcd(x, N) = 1`),
`find_period_classical` returns 2, yet `k = 1` already satisfies
`6^1 mod 5 = 1` with `1 ≤ k < 2`, so the returned value is not the smallest
`r ≥ 1` with `x^r mod N = 1`: the loop starts from the raw value `t = x`
rather than `x mod N`, so it never exits at the first power for `x ≡ 1
(mod N)` with `x ≠ 1`. -/
theorem claim_C1_counterexample :
    Nat.gcd 6 5 = 1 ∧ find_period_classical 6 5 5 = some 2 ∧
      6 ^ 1 % 5 = 1 ∧ 1 < 2 := by decide

/-- C1 (amended): for every base `x` with `2 ≤ x < N` and `gcd(x, N) = 1`
and every modulus `N > 1`, `find_period_classical x N` (run with any fuel of
at least `N` condition checks) returns the smallest integer `r ≥ 1` such that
`x^r mod N = 1`: the returned `r` satisfies `x^r mod N = 1` and for all `k`
with `1 ≤ k < r`, `x^k mod N ≠ 1`. -/
theorem claim_C1_amended (x N fuel : Nat) (hx : 2 ≤ x) (hxN : x < N)
    (hN : 1 < N) (hg : Nat.gcd x N = 1) (hfuel : N ≤ fuel) :
    ∃ r, find_period_classical x N fuel = some r ∧ 1 ≤ r ∧
      x ^ r % N = 1 ∧ ∀ k, 1 ≤ k → k < r → x ^ k % N ≠ 1 := by
  have hex := exists_pow_mod_one x N hN hg
  obtain ⟨r₀, hr₀def⟩ : ∃ r₀, Nat.find hex = r₀ := ⟨Nat.find hex, rfl⟩
  obtain ⟨hr₀pos, hr₀one⟩ : 0 < r₀ ∧ x ^ r₀ % N = 1 := hr₀def ▸ Nat.find_spec hex
  have hmin : ∀ k, 1 ≤ k → k < r₀ → x ^ k % N ≠ 1 := by
    intro k hk1 hkr h
    exact Nat.find_min hex (hr₀def ▸ hkr) ⟨by omega, h⟩
  have hr₀2 : 2 ≤ r₀ := by
    rcases Nat.lt_or_ge r₀ 2 with h2 | h2
    · exfalso
      have hr1 : r₀ = 1 := by omega
      rw [hr1, pow_one, Nat.mod_eq_of_lt hxN] at hr₀one
      omega
    · exact h2
  have hr₀lt : r₀ < N := by
    have hle : r₀ ≤ Nat.totient N :=
      hr₀def ▸ Nat.find_min' hex ⟨Nat.totient_pos.mpr (by omega), by
        have h := Nat.ModEq.pow_totient (show Nat.Coprime x N from hg)
        have h1 : x ^ Nat.totient N % N = 1 % N := h
        rwa [Nat.mod_eq_of_lt hN] at h1⟩
    have := Nat.totient_lt N hN
    omega
  have hrun : fpcGo x N fuel x 1 = some (1 + (r₀ - 1)) := by
    apply fpcGo_some x N fuel (r₀ - 1) x 1 (by omega)
    · rw [iterT_pow x N (r₀ - 1) (by omega)]
      have : r₀ - 1 + 1 = r₀ := by omega
      rw [this]; exact hr₀one
    · intro j hj
      cases j with
      | zero => show x ≠ 1; omega
      | succ j =>
        rw [iterT_pow x N (j + 1) (by omega)]
        exact hmin (j + 2) (by omega) (by omega)
  refine ⟨r₀, ?_, by omega, hr₀one, hmin⟩
  show fpcGo x N fuel x 1 = some r₀
  rw [hrun]
  congr 1
  omega

/-- C1 (witness for the amended claim): at `x = 2`, `N = 15`, fuel 15, the
amended theorem applies and yields the period. -/
theorem claim_C1_witness :
    ∃ r, find_period_classical 2 15 15 = some r ∧ 1 ≤ r ∧
      2 ^ r % 15 = 1 ∧ ∀ k, 1 ≤ k → k < r → 2 ^ k % 15 ≠ 1 :=
  claim_C1_amended 2 15 15 (by decide) (by decide) (by decide) (by decide)
    (by decide)

/-- C3: for every `x ≥ 2` and `N > 1` with `gcd(x, N) = 1`, the loop in
`find_period_classical x N` terminates, reaching `t = 1` within at most `N`
evaluations of the loop condition (so at most `N` iterations): with fuel `N`
the embedded loop returns a value instead of running out of fuel. -/
theorem claim_C3_terminates (x N : Nat) (hx : 2 ≤ x) (hN : 1 < N)
    (hg : Nat.gcd x N = 1) :
    ∃ r, find_period_classical x N N = some r := by
  have hwit : ∃ w, w < N ∧ iterT x N x w = 1 := by
    by_cases hx1 : x % N = 1
    · refine ⟨1, hN, ?_⟩
      rw [iterT_pow x N 1 le_rfl, Nat.pow_mod, hx1, one_pow,
        Nat.mod_eq_of_lt hN]
    · have h := Nat.ModEq.pow_totient (show Nat.Coprime x N from hg)
      have h1 : x ^ Nat.totient N % N = 1 := by
        have h1 : x ^ Nat.totient N % N = 1 % N := h
        rwa [Nat.mod_eq_of_lt hN] at h1
      have hφpos : 0 < Nat.totient N := Nat.totient_pos.mpr (by omega)
      have hφ2 : 2 ≤ Nat.totient N := by
        rcases Nat.lt_or_ge (Nat.totient N) 2 with h2 | h2
        · exfalso
          have hφ1 : Nat.totient N = 1 := by omega
          rw [hφ1, pow_one] at h1
          exact hx1 h1
        · exact h2
      refine ⟨Nat.totient N - 1, ?_, ?_⟩
      · have := Nat.totient_lt N hN
        omega
      · rw [iterT_pow x N (Nat.totient N - 1) (by omega)]
        have : Nat.totient N - 1 + 1 = Nat.totient N := by omega
        rw [this]; exact h1
  have hexQ : ∃ j, iterT x N x j = 1 := by
    obtain ⟨w, _, hw⟩ := hwit
    exact ⟨w, hw⟩
  obtain ⟨w, hwN, hw⟩ := hwit
  have hfind : Nat.find hexQ ≤ w := Nat.find_min' hexQ hw
  refine ⟨1 + Nat.find hexQ, ?_⟩
  exact fpcGo_some x N N (Nat.find hexQ) x 1 (by omega) (Nat.find_spec hexQ)
    (fun j hj => Nat.find_min hexQ hj)

/-- C3 (witness): `x = 2`, `N = 3`. -/
theorem claim_C3_witness : ∃ r, find_period_classical 2 3 3 = some r :=
  claim_C3_terminates 2 3 (by decide) (by decide) (by decide)

/-- C4: for every `x ≥ 2` and `N > 1` with `gcd(x, N) ≠ 1`, the loop state
`t` in `find_period_classical x N` never equals 1 at any iteration (so the
loop never exits at `t = 1`, whatever the fuel): no power `x^k mod N` with
`k ≥ 1` equals 1 when `x` shares a factor with `N`. -/
theorem claim_C4_never_one (x N : Nat) (hx : 2 ≤ x) (hN : 1 < N)
    (hg : Nat.gcd x N ≠ 1) :
    (∀ k, iterT x N x k ≠ 1) ∧
      ∀ fuel, find_period_classical x N fuel = none := by
  have hiter : ∀ k, iterT x N x k ≠ 1 := by
    intro k
    cases k with
    | zero => show x ≠ 1; omega
    | succ k =>
      rw [iterT_pow x N (k + 1) (by omega)]
      exact pow_mod_ne_one_of_gcd_ne_one x N (k + 1) hN hg
  exact ⟨hiter, fun fuel => fpcGo_none x N fuel x 1 hiter⟩

/-- C4 (witness): at `x = 2`, `N = 4` (gcd 2), the loop finds no period even
with generous fuel. -/
theorem claim_C4_witness : find_period_classical 2 4 100 = none :=
  (claim_C4_never_one 2 4 (by decide) (by decide) (by decide)).2 100

/-- C9: outside the spec's stated precondition `2 ≤ x`, for every `N`
(including `N ≤ 1`), `find_period_classical 1 N` returns 1 immediately: even
fuel 1 — which permits exactly one condition check and no loop body, hence no
multiplication and no modulo operation — suffices, and every larger fuel
returns the same value. -/
theorem claim_C9_base_one (N : Nat) :
    find_period_classical 1 N 1 = some 1 ∧
      ∀ fuel, 1 ≤ fuel → find_period_classical 1 N fuel = some 1 := by
  constructor
  · rfl
  · intro fuel hfuel
    cases fuel with
    | zero => omega
    | succ fuel => rfl

/-- C9 (witness): at `N = 0` and `N = 17`, with fuel 1 and 5. -/
theorem claim_C9_witness :
    find_period_classical 1 0 1 = some 1 ∧ find_period_classical 1 17 5 = some 1 :=
  ⟨(claim_C9_base_one 0).1, (claim_C9_base_one 17).2 5 (by decide)⟩

/-- C5: for every `N > 1`, every `x`, and every even period `r ≥ 2` with
`x^r mod N = 1`, letting `y = x^(r/2) mod N`: if `y ≠ 1` and `y ≠ N − 1`,
then at least one of `gcd(y − 1, N)` and `gcd(y + 1, N)` is a nontrivial
proper divisor of `N` (strictly between 1 and `N`).  (In fact `gcd(y − 1, N)`
always is, which proves the disjunction.) -/
theorem claim_C5_nontrivial_divisor (x N r : Nat) (hN : 1 < N)
    (hrev : r % 2 = 0) (hr2 : 2 ≤ r) (hxr : x ^ r % N = 1)
    (hy1 : recover_y x N r ≠ 1) (hyN : recover_y x N r ≠ N - 1) :
    (recover_dplus x N r ∣ N ∧ 1 < recover_dplus x N r ∧
        recover_dplus x N r < N) ∨
      (recover_dminus x N r ∣ N ∧ 1 < recover_dminus x N r ∧
        recover_dminus x N r < N) := by
  left
  have hyltN : recover_y x N r < N := Nat.mod_lt _ (by omega)
  have hsq : recover_y x N r ^ 2 % N = 1 := by
    show (x ^ (r / 2) % N) ^ 2 % N = 1
    rw [← Nat.pow_mod, ← pow_mul, Nat.div_mul_cancel (Nat.dvd_of_mod_eq_zero hrev)]
    exact hxr
  have hy0 : recover_y x N r ≠ 0 := by
    intro h0
    rw [h0] at hsq
    simp only [pow_two, Nat.mul_zero, Nat.zero_mod] at hsq
    omega
  obtain ⟨m, hm⟩ : ∃ m, recover_y x N r = m + 2 := by
    refine ⟨recover_y x N r - 2, ?_⟩
    omega
  have hdvd : N ∣ recover_y x N r ^ 2 - 1 := by
    have h1N : (1 : Nat) % N = 1 := Nat.mod_eq_of_lt hN
    have hmodeq : 1 ≡ recover_y x N r ^ 2 [MOD N] := by
      show 1 % N = recover_y x N r ^ 2 % N
      rw [h1N, hsq]
    exact (Nat.modEq_iff_dvd'
      (Nat.one_le_iff_ne_zero.mpr (pow_ne_zero 2 hy0))).mp hmodeq
  have hfact : recover_y x N r ^ 2 - 1 =
      (recover_y x N r - 1) * (recover_y x N r + 1) := by
    rw [hm]
    have h1 : (m + 2) ^ 2 = m * m + 4 * m + 4 := by ring
    have h2 : (m + 2 - 1) * (m + 2 + 1) = m * m + 4 * m + 3 := by
      have : (m + 1) * (m + 3) = m * m + 4 * m + 3 := by ring
      simpa using this
    omega
  have hdvd' : N ∣ (recover_y x N r - 1) * (recover_y x N r + 1) :=
    hfact ▸ hdvd
  refine ⟨Nat.gcd_dvd_right _ _, ?_, ?_⟩
  · have hne0 : recover_dplus x N r ≠ 0 := by
      intro h0
      have := Nat.eq_zero_of_gcd_eq_zero_right h0
      omega
    have hne1 : recover_dplus x N r ≠ 1 := by
      intro h1
      have hco : Nat.Coprime N (recover_y x N r - 1) :=
        Nat.coprime_comm.mp h1
      have hNdvd : N ∣ recover_y x N r + 1 :=
        hco.dvd_of_dvd_mul_left hdvd'
      have := Nat.le_of_dvd (by omega) hNdvd
      omega
    omega
  · have hle : recover_dplus x N r ≤ recover_y x N r - 1 :=
      Nat.le_of_dvd (by omega) (Nat.gcd_dvd_left _ _)
    omega

/-- C5 (witness): at `x = 7`, `N = 15`, `r = 4`: `y = 7² mod 15 = 4`, and
`gcd(3, 15) = 3` is a nontrivial proper divisor of 15. -/
theorem claim_C5_witness :
    (recover_dplus 7 15 4 ∣ 15 ∧ 1 < recover_dplus 7 15 4 ∧
        recover_dplus 7 15 4 < 15) ∨
      (recover_dminus 7 15 4 ∣ 15 ∧ 1 < recover_dminus 7 15 4 ∧
        recover_dminus 7 15 4 < 15) :=
  claim_C5_nontrivial_divisor 7 15 4 (by decide) (by decide) (by decide)
    (by decide) (by decide) (by decide)

/-- C8: the concrete scenario `N = 15`, `x = 2`: `find_period_classical 2 15`
returns 4, `y = 2² mod 15 = 4`, `gcd(y − 1, 15) = gcd(3, 15) = 3` and
`gcd(y + 1, 15) = gcd(5, 15) = 5`, yielding the factor pair `(3, 5)` of 15. -/
theorem claim_C8_scenario_15 :
    find_period_classical 2 15 15 = some 4 ∧ recover_y 2 15 4 = 4 ∧
      recover_dplus 2 15 4 = 3 ∧ recover_dminus 2 15 4 = 5 ∧
      3 * 5 = 15 := by decide

/-! ## The incremental Sieve of Eratosthenes (`sieve`, `get_primes_sieve`,
`get_semiprime`)

The Python dict `D` mapping "next composite multiple" to "generating prime"
is embedded as an association list with unique keys; `sieve()`'s generator is
embedded as a step function on an explicit state. -/

/-- The sieve's tracking dictionary `D`: an association list from composite
key to generating prime. -/
abbrev DMap := List (Nat × Nat)

/-- Key lookup in the tracking dictionary (the read part of `D.pop(q, None)`
and the membership test `x in D`). -/
def dLookup (D : DMap) (k : Nat) : Option Nat :=
  (D.find? (fun e => e.1 == k)).map Prod.snd

/-- Key removal, the destructive part of `D.pop(q, None)`. -/
def dErase (D : DMap) (k : Nat) : DMap :=
  D.filter (fun e => e.1 != k)

/-- Key assignment `D[k] = v` (insert-or-replace, as for a Python dict). -/
def dInsert (D : DMap) (k v : Nat) : DMap :=
  (k, v) :: dErase D k

/-- The inner advance loop of `sieve()`'s composite branch:
`x = p + q; while x in D or not (x&1): x += p`, with fuel.  The caller passes
fuel `2*|D| + 2`, which always suffices (`nextUntracked_spec`). -/
def nextUntracked (D : DMap) (p : Nat) : Nat → Nat → Nat
  | 0, x => x
  | fuel + 1, x =>
    if (dLookup D x).isSome || x % 2 == 0 then nextUntracked D p fuel (x + p)
    else x

/-- Generator state of `sieve()`: the tracking dictionary, the next odd
candidate of `itertools.count(3, 2)`, and the primes yielded so far (starting
with the initial `yield 2`). -/
structure SieveState where
  D : DMap
  q : Nat
  out : List Nat

/-- One iteration of the `for q in count(3, step 2)` loop body of `sieve()`:
`p = D.pop(q, None)`; if untracked, `D[q*q] = q; yield q`; otherwise advance
`p`'s tracked multiple past `q` to the next odd untracked one. -/
def sieveStep (s : SieveState) : SieveState :=
  match dLookup s.D s.q with
  | none => ⟨dInsert s.D (s.q * s.q) s.q, s.q + 2, s.out ++ [s.q]⟩
  | some p =>
    let D' := dErase s.D s.q
    let c := nextUntracked D' p (2 * D'.length + 2) (p + s.q)
    ⟨dInsert D' c p, s.q + 2, s.out⟩

/-- The generator state right after the initial `yield 2`, about to test
candidate 3 with an empty tracking dictionary. -/
def sieveInit : SieveState := ⟨[], 3, [2]⟩

/-- The sieve generator run for `k` odd-candidate iterations. -/
def sieveRun : Nat → SieveState
  | 0 => sieveInit
  | k + 1 => sieveStep (sieveRun k)

/-- `get_primes_sieve(n)` from the source:
`list(takewhile(lambda p: p < n, sieve()))`.  Running the generator for `n`
candidate iterations covers the odd candidates `3, 5, …, 2*n + 1`, hence
yields every prime below `n` (proved below), so applying the source's
take-while to this finite run agrees with applying it to the lazy stream. -/
def get_primes_sieve (n : Nat) : List Nat :=
  ((sieveRun n).out).takeWhile (fun p => decide (p < n))

/-- `get_semiprime(n)` from the source, with the two `random.randrange(l)`
draws modelled as explicit indices `i j` into the prime list; `none` models
the `ValueError` raised by `randrange(0)` when the prime list is empty (it is
also returned for out-of-range indices, which `randrange` never produces). -/
def get_semiprime (n i j : Nat) : Option Nat :=
  let primes := get_primes_sieve n
  if h : i < primes.length ∧ j < primes.length then
    some (primes.get ⟨i, h.1⟩ * primes.get ⟨j, h.2⟩)
  else none

theorem dLookup_eq_some {D : DMap} {k v : Nat} (h : dLookup D k = some v) :
    (k, v) ∈ D := by
  unfold dLookup at h
  rcases hf : D.find? (fun e => e.1 == k) with _ | e
  · rw [hf] at h; simp at h
  · rw [hf] at h
    simp only [Option.map_some'] at h
    have hmem := List.mem_of_find?_eq_some hf
    have hkey : e.1 = k := by
      have := List.find?_some hf
      simpa using this
    have : e = (k, v) := by
      cases e
      simp_all
    rwa [this] at hmem

theorem dLookup_none_iff {D : DMap} {k : Nat} :
    dLookup D k = none ↔ ∀ e ∈ D, e.1 ≠ k := by
  unfold dLookup
  simp [List.find?_eq_none]

theorem mem_dErase {D : DMap} {k : Nat} {e : Nat × Nat} :
    e ∈ dErase D k ↔ e ∈ D ∧ e.1 ≠ k := by
  unfold dErase
  simp [List.mem_filter]

theorem dErase_of_not_key {D : DMap} {k : Nat} (h : ∀ e ∈ D, e.1 ≠ k) :
    dErase D k = D := by
  unfold dErase
  rw [List.filter_eq_self]
  intro e he
  simpa using h e he

theorem dErase_sublist (D : DMap) (k : Nat) : List.Sublist (dErase D k) D :=
  List.filter_sublist D

/-- Number of tracked odd keys at least `x`: the termination measure of the
inner advance loop. -/
def cntOdd (D : DMap) (x : Nat) : Nat :=
  D.countP (fun e => decide (x ≤ e.1 ∧ e.1 % 2 = 1))

theorem cntOdd_le_length (D : DMap) (x : Nat) : cntOdd D x ≤ D.length :=
  List.countP_le_length _

theorem cntOdd_mono (D : DMap) {x y : Nat} (h : x ≤ y) :
    cntOdd D y ≤ cntOdd D x := by
  apply List.countP_mono_left
  intro e _ hpe
  simp only [decide_eq_true_eq] at hpe ⊢
  exact ⟨le_trans h hpe.1, hpe.2⟩

theorem cntOdd_lt (D : DMap) {x p : Nat} (hx : x % 2 = 1) (hp : 0 < p)
    (hmem : ∃ e ∈ D, e.1 = x) : cntOdd D (x + p) < cntOdd D x := by
  induction D with
  | nil => simp at hmem
  | cons e D ih =>
    obtain ⟨e0, he0mem, he0⟩ := hmem
    simp only [cntOdd, List.countP_cons]
    rcases List.mem_cons.mp he0mem with heq | hmemD
    · subst heq
      have hhx : decide (x ≤ e0.1 ∧ e0.1 % 2 = 1) = true := by
        rw [decide_eq_true_eq]
        exact ⟨le_of_eq he0.symm, by rw [he0]; exact hx⟩
      have hhxp : decide (x + p ≤ e0.1 ∧ e0.1 % 2 = 1) = false := by
        rw [decide_eq_false_iff_not]
        rintro ⟨hle, _⟩
        omega
      rw [hhx, hhxp]
      have hmono := cntOdd_mono D (show x ≤ x + p by omega)
      simp only [cntOdd] at hmono
      have e1 : (if (false = true) then 1 else 0) = 0 := rfl
      have e2 : (if (true = true) then 1 else 0) = 1 := rfl
      rw [e1, e2]
      omega
    · have hrec := ih ⟨e0, hmemD, he0⟩
      simp only [cntOdd] at hrec
      by_cases hh : x + p ≤ e.1 ∧ e.1 % 2 = 1
      · have hh' : x ≤ e.1 ∧ e.1 % 2 = 1 := ⟨by omega, hh.2⟩
        rw [decide_eq_true hh, decide_eq_true hh']
        simp only [if_pos rfl]
        omega
      · rw [decide_eq_false hh]
        simp only [if_neg (by simp : ¬(false = true))]
        have hb : (if decide (x ≤ e.1 ∧ e.1 % 2 = 1) = true then 1 else 0) ≤ 1 := by
          split <;> omega
        omega

/-- Correctness of the inner advance loop: with enough fuel, it returns the
first value of the arithmetic progression `x, x+p, x+2p, …` that is both odd
and untracked. -/
theorem nextUntracked_spec (D : DMap) (p : Nat) (hp : p % 2 = 1) :
    ∀ fuel x, 2 * cntOdd D x + (x + 1) % 2 < fuel →
      ∃ k, nextUntracked D p fuel x = x + k * p ∧
        dLookup D (x + k * p) = none ∧ (x + k * p) % 2 = 1 ∧
        ∀ j, j < k → ¬(dLookup D (x + j * p) = none ∧ (x + j * p) % 2 = 1) := by
  intro fuel
  induction fuel with
  | zero => intro x h; omega
  | succ fuel ih =>
    intro x hfuel
    by_cases hgood : dLookup D x = none ∧ x % 2 = 1
    · refine ⟨0, ?_, by simpa using hgood.1, by simpa using hgood.2, ?_⟩
      · have hcond : ((dLookup D x).isSome || x % 2 == 0) = false := by
          rw [hgood.1]
          simp only [Option.isSome_none, Bool.false_or, beq_eq_false_iff_ne]
          omega
        show nextUntracked D p (fuel + 1) x = x + 0 * p
        simp [nextUntracked, hcond]
      · intro j hj; omega
    · have hcond : ((dLookup D x).isSome || x % 2 == 0) = true := by
        rcases hdx : dLookup D x with _ | v
        · have hx2 : x % 2 = 0 := by
            by_contra hodd
            exact hgood ⟨hdx, by omega⟩
          simp [hx2]
        · simp
      have hrec : nextUntracked D p (fuel + 1) x = nextUntracked D p fuel (x + p) := by
        simp [nextUntracked, hcond]
      have hfuel' : 2 * cntOdd D (x + p) + (x + p + 1) % 2 < fuel := by
        by_cases hx2 : x % 2 = 1
        · have hkey : ∃ e ∈ D, e.1 = x := by
            rcases hdx : dLookup D x with _ | v
            · exact absurd ⟨hdx, hx2⟩ hgood
            · exact ⟨(x, v), dLookup_eq_some hdx, rfl⟩
          have hppos : 0 < p := by omega
          have hlt := cntOdd_lt D hx2 hppos hkey
          omega
        · have hmono := cntOdd_mono D (show x ≤ x + p by omega)
          omega
      obtain ⟨k, hval, hnone, hodd, hmin⟩ := ih (x + p) hfuel'
      have harith : x + p + k * p = x + (k + 1) * p := by ring
      refine ⟨k + 1, ?_, ?_, ?_, ?_⟩
      · rw [hrec, hval, harith]
      · rwa [← harith]
      · rwa [← harith]
      · intro j hj
        cases j with
        | zero => simpa using hgood
        | succ j =>
          have harith' : x + (j + 1) * p = x + p + j * p := by ring
          rw [harith']
          exact hmin j (by omega)

/-- The fuel used at the call site in `sieveStep` always suffices. -/
theorem nextUntracked_run (D : DMap) (p x : Nat) (hp : p % 2 = 1) :
    ∃ k, nextUntracked D p (2 * D.length + 2) x = x + k * p ∧
      dLookup D (x + k * p) = none ∧ (x + k * p) % 2 = 1 ∧
      ∀ j, j < k → ¬(dLookup D (x + j * p) = none ∧ (x + j * p) % 2 = 1) := by
  apply nextUntracked_spec D p hp
  have h1 := cntOdd_le_length D x
  have h2 : (x + 1) % 2 ≤ 1 := by omega
  omega

/-- The master invariant of the sieve generator state, holding each time the
generator is about to test the next odd candidate `s.q`:  keys and values of
the tracking dictionary are unique; every entry `(c, p)` has `p` an odd prime
below `q` dividing the odd key `c ≥ q`; every odd prime below `q` is the
value of an entry; every odd multiple `m` of an entry's prime with
`p² ≤ m < c` is either already passed (`m < q`) or currently tracked; and the
yields so far are exactly the primes below `q`, in increasing order. -/
structure SInv (s : SieveState) : Prop where
  q_odd : s.q % 2 = 1
  q_ge : 3 ≤ s.q
  keys_nodup : (s.D.map Prod.fst).Nodup
  vals_nodup : (s.D.map Prod.snd).Nodup
  entry_inv : ∀ e ∈ s.D, Nat.Prime e.2 ∧ e.2 % 2 = 1 ∧ e.2 < s.q ∧
    e.2 ∣ e.1 ∧ e.1 % 2 = 1 ∧ s.q ≤ e.1
  vals_complete : ∀ p, Nat.Prime p → p % 2 = 1 → p < s.q → ∃ e ∈ s.D, e.2 = p
  cover : ∀ e ∈ s.D, ∀ m, e.2 * e.2 ≤ m → m < e.1 → e.2 ∣ m → m % 2 = 1 →
    m < s.q ∨ ∃ e' ∈ s.D, e'.1 = m
  out_mem : ∀ x, x ∈ s.out ↔ (Nat.Prime x ∧ x < s.q)
  out_sorted : s.out.Sorted (· < ·)

/-- Completeness of the tracking dictionary: an untracked candidate is
prime. -/
theorem SInv_prime_of_no_key {s : SieveState} (h : SInv s)
    (hq : dLookup s.D s.q = none) : Nat.Prime s.q := by
  by_contra hcomp
  have hq3 := h.q_ge
  have hqodd := h.q_odd
  have hne1 : s.q ≠ 1 := by omega
  have hpf : Nat.Prime (Nat.minFac s.q) := Nat.minFac_prime hne1
  have hdvd : Nat.minFac s.q ∣ s.q := Nat.minFac_dvd s.q
  have hsq : Nat.minFac s.q * Nat.minFac s.q ≤ s.q := by
    have := Nat.minFac_sq_le_self (by omega) hcomp
    rwa [pow_two] at this
  have hodd : Nat.minFac s.q % 2 = 1 := by
    rcases hpf.eq_two_or_odd with h2 | h2
    · exfalso
      rw [h2] at hdvd
      omega
    · exact h2
  have hmf2 : 2 ≤ Nat.minFac s.q := hpf.two_le
  have hlt : Nat.minFac s.q < s.q := by
    have h2 : Nat.minFac s.q * 2 ≤ Nat.minFac s.q * Nat.minFac s.q :=
      Nat.mul_le_mul_left _ hmf2
    omega
  obtain ⟨e, hemem, hep⟩ := h.vals_complete _ hpf hodd hlt
  obtain ⟨_, _, _, hdvd', _, hge⟩ := h.entry_inv e hemem
  have hnokey := dLookup_none_iff.mp hq
  rcases Nat.eq_or_lt_of_le hge with heq | hlt'
  · exact hnokey e hemem heq.symm
  · have hc := h.cover e hemem s.q (by rw [hep]; exact hsq) hlt'
      (by rw [hep]; exact hdvd) hqodd
    rcases hc with h1 | ⟨e', he'mem, he'⟩
    · omega
    · exact hnokey e' he'mem he'

/-- Constructor of `SInv` over explicit components, keeping field goals free
of structure-literal projections. -/
theorem SInv.mk' (D : DMap) (q : Nat) (out : List Nat)
    (q_odd : q % 2 = 1) (q_ge : 3 ≤ q)
    (keys_nodup : (D.map Prod.fst).Nodup)
    (vals_nodup : (D.map Prod.snd).Nodup)
    (entry_inv : ∀ e ∈ D, Nat.Prime e.2 ∧ e.2 % 2 = 1 ∧ e.2 < q ∧
      e.2 ∣ e.1 ∧ e.1 % 2 = 1 ∧ q ≤ e.1)
    (vals_complete : ∀ p, Nat.Prime p → p % 2 = 1 → p < q → ∃ e ∈ D, e.2 = p)
    (cover : ∀ e ∈ D, ∀ m, e.2 * e.2 ≤ m → m < e.1 → e.2 ∣ m → m % 2 = 1 →
      m < q ∨ ∃ e' ∈ D, e'.1 = m)
    (out_mem : ∀ x, x ∈ out ↔ (Nat.Prime x ∧ x < q))
    (out_sorted : out.Sorted (· < ·)) : SInv ⟨D, q, out⟩ :=
  ⟨q_odd, q_ge, keys_nodup, vals_nodup, entry_inv, vals_complete, cover,
    out_mem, out_sorted⟩

theorem sieveStep_of_none {s : SieveState} (h : dLookup s.D s.q = none) :
    sieveStep s = ⟨dInsert s.D (s.q * s.q) s.q, s.q + 2, s.out ++ [s.q]⟩ := by
  unfold sieveStep
  rw [h]

theorem sieveStep_of_some {s : SieveState} {p : Nat}
    (h : dLookup s.D s.q = some p) :
    sieveStep s = ⟨dInsert (dErase s.D s.q) (nextUntracked (dErase s.D s.q) p
      (2 * (dErase s.D s.q).length + 2) (p + s.q)) p, s.q + 2, s.out⟩ := by
  unfold sieveStep
  rw [h]

/-- Preservation of the invariant by the prime branch of `sieveStep`
(untracked candidate: insert `q² ↦ q` and yield `q`). -/
theorem sinv_step_none {s : SieveState} (h : SInv s)
    (hlk : dLookup s.D s.q = none) : SInv (sieveStep s) := by
  have hqprime : Nat.Prime s.q := SInv_prime_of_no_key h hlk
  have hnokey : ∀ e ∈ s.D, e.1 ≠ s.q := dLookup_none_iff.mp hlk
  have hq3 := h.q_ge
  have hqodd := h.q_odd
  have hq2ne : ∀ e ∈ s.D, e.1 ≠ s.q * s.q := by
    intro e he hcontra
    obtain ⟨hp, _, hplt, hdv, _, _⟩ := h.entry_inv e he
    rw [hcontra] at hdv
    have heq : e.2 = s.q := by
      rcases (Nat.Prime.dvd_mul hp).mp hdv with h1 | h1 <;>
        exact (Nat.prime_dvd_prime_iff_eq hp hqprime).mp h1
    omega
  have hins : dInsert s.D (s.q * s.q) s.q = (s.q * s.q, s.q) :: s.D := by
    unfold dInsert
    rw [dErase_of_not_key hq2ne]
  rw [sieveStep_of_none hlk, hins]
  apply SInv.mk'
  case q_odd => omega
  case q_ge => omega
  case keys_nodup =>
    rw [List.map_cons]
    refine List.nodup_cons.mpr ⟨?_, h.keys_nodup⟩
    intro hmem
    obtain ⟨e, he, he1⟩ := List.mem_map.mp hmem
    exact hq2ne e he he1
  case vals_nodup =>
    rw [List.map_cons]
    refine List.nodup_cons.mpr ⟨?_, h.vals_nodup⟩
    intro hmem
    obtain ⟨e, he, he2⟩ := List.mem_map.mp hmem
    obtain ⟨_, _, hplt, _, _, _⟩ := h.entry_inv e he
    omega
  case entry_inv =>
    intro e he
    rcases List.mem_cons.mp he with rfl | he'
    · refine ⟨hqprime, hqodd, by omega, dvd_mul_left s.q s.q, ?_, ?_⟩
      · show s.q * s.q % 2 = 1
        rw [Nat.mul_mod, hqodd]
      · show s.q + 2 ≤ s.q * s.q
        have h3 : 3 * s.q ≤ s.q * s.q := Nat.mul_le_mul_right s.q hq3
        omega
    · obtain ⟨h1, h2, h3', h4, h5, h6⟩ := h.entry_inv e he'
      have hne := hnokey e he'
      exact ⟨h1, h2, by omega, h4, h5, by omega⟩
  case vals_complete =>
    intro p hp hpo hplt
    by_cases hpq : p < s.q
    · obtain ⟨e, he, he2⟩ := h.vals_complete p hp hpo hpq
      exact ⟨e, List.mem_cons_of_mem _ he, he2⟩
    · have hq' : p = s.q := by omega
      exact ⟨(s.q * s.q, s.q), List.mem_cons_self _ _, by rw [hq']⟩
  case cover =>
    intro e he m hm1 hm2 hm3 hm4
    rcases List.mem_cons.mp he with rfl | he'
    · exfalso
      have hm1' : s.q * s.q ≤ m := hm1
      have hm2' : m < s.q * s.q := hm2
      omega
    · rcases h.cover e he' m hm1 hm2 hm3 hm4 with h1 | ⟨e', he'', he1⟩
      · left; omega
      · right; exact ⟨e', List.mem_cons_of_mem _ he'', he1⟩
  case out_mem =>
    intro x
    rw [List.mem_append, h.out_mem x, List.mem_singleton]
    constructor
    · rintro (⟨hp, hlt⟩ | rfl)
      · exact ⟨hp, by omega⟩
      · exact ⟨hqprime, by omega⟩
    · rintro ⟨hp, hlt⟩
      by_cases hx : x < s.q
      · exact Or.inl ⟨hp, hx⟩
      · right
        rcases hp.eq_two_or_odd with h2 | h2 <;> omega
  case out_sorted =>
    refine List.pairwise_append.mpr ⟨h.out_sorted, by simp, ?_⟩
    intro a ha b hb
    rw [List.mem_singleton] at hb
    subst hb
    exact ((h.out_mem a).mp ha).2

/-- Preservation of the invariant by the composite branch of `sieveStep`
(tracked candidate `q`: pop its prime `p` and re-insert the next odd
untracked multiple of `p`). -/
theorem sinv_step_some {s : SieveState} (h : SInv s) {p : Nat}
    (hlk : dLookup s.D s.q = some p) : SInv (sieveStep s) := by
  have hq3 := h.q_ge
  have hqodd := h.q_odd
  have hqmem : (s.q, p) ∈ s.D := dLookup_eq_some hlk
  obtain ⟨hpprime, hpodd, hplt, hpdvd, _, _⟩ := h.entry_inv (s.q, p) hqmem
  have hpodd' : p % 2 = 1 := hpodd
  have hplt' : p < s.q := hplt
  have hpdvd' : p ∣ s.q := hpdvd
  have hpprime' : Nat.Prime p := hpprime
  have hp3 : 3 ≤ p := by
    have := hpprime'.two_le
    omega
  have hqcomp : ¬ Nat.Prime s.q := by
    intro hq
    rcases Nat.Prime.eq_one_or_self_of_dvd hq p hpdvd' with h1 | h1 <;> omega
  obtain ⟨k, hcval, hcnone, hcodd, hcmin⟩ :=
    nextUntracked_run (dErase s.D s.q) p (p + s.q) hpodd'
  have hceq : nextUntracked (dErase s.D s.q) p (2 * (dErase s.D s.q).length + 2)
      (p + s.q) = p + s.q + k * p := hcval
  have hckey : dLookup (dErase s.D s.q)
      (nextUntracked (dErase s.D s.q) p (2 * (dErase s.D s.q).length + 2)
        (p + s.q)) = none := by
    rw [hceq]; exact hcnone
  have hstep : sieveStep s = ⟨(p + s.q + k * p, p) :: dErase s.D s.q,
      s.q + 2, s.out⟩ := by
    rw [sieveStep_of_some hlk]
    have hinsert : dInsert (dErase s.D s.q)
        (nextUntracked (dErase s.D s.q) p (2 * (dErase s.D s.q).length + 2)
          (p + s.q)) p = (p + s.q + k * p, p) :: dErase s.D s.q := by
      unfold dInsert
      rw [dErase_of_not_key (dLookup_none_iff.mp hckey), hceq]
    rw [hinsert]
  have hkeysD' : ((dErase s.D s.q).map Prod.fst).Nodup :=
    List.Nodup.sublist (List.Sublist.map Prod.fst (dErase_sublist s.D s.q))
      h.keys_nodup
  have hvalsD' : ((dErase s.D s.q).map Prod.snd).Nodup :=
    List.Nodup.sublist (List.Sublist.map Prod.snd (dErase_sublist s.D s.q))
      h.vals_nodup
  have hcnokey : ∀ e ∈ dErase s.D s.q, e.1 ≠ p + s.q + k * p := by
    intro e he
    have := dLookup_none_iff.mp hcnone e he
    exact this
  have hpnoval : ∀ e ∈ dErase s.D s.q, e.2 ≠ p := by
    intro e he hep
    obtain ⟨heD, hneq⟩ := mem_dErase.mp he
    have heq : e = (s.q, p) :=
      List.inj_on_of_nodup_map h.vals_nodup heD hqmem (by rw [hep])
    rw [heq] at hneq
    exact hneq rfl
  rw [hstep]
  apply SInv.mk'
  case q_odd => omega
  case q_ge => omega
  case keys_nodup =>
    rw [List.map_cons]
    refine List.nodup_cons.mpr ⟨?_, hkeysD'⟩
    intro hmem
    obtain ⟨e, he, he1⟩ := List.mem_map.mp hmem
    exact hcnokey e he he1
  case vals_nodup =>
    rw [List.map_cons]
    refine List.nodup_cons.mpr ⟨?_, hvalsD'⟩
    intro hmem
    obtain ⟨e, he, he2⟩ := List.mem_map.mp hmem
    exact hpnoval e he he2
  case entry_inv =>
    intro e he
    rcases List.mem_cons.mp he with rfl | he'
    · refine ⟨hpprime', hpodd', by omega, ?_, ?_, ?_⟩
      · show p ∣ p + s.q + k * p
        exact dvd_add (dvd_add dvd_rfl hpdvd') (dvd_mul_left p k)
      · show (p + s.q + k * p) % 2 = 1
        exact hcodd
      · show s.q + 2 ≤ p + s.q + k * p
        omega
    · obtain ⟨heD, hneq⟩ := mem_dErase.mp he'
      obtain ⟨h1, h2, h3', h4, h5, h6⟩ := h.entry_inv e heD
      exact ⟨h1, h2, by omega, h4, h5, by omega⟩
  case vals_complete =>
    intro p' hp' hpo' hplt2
    by_cases hpp : p' = p
    · exact ⟨(p + s.q + k * p, p), List.mem_cons_self _ _, by rw [hpp]⟩
    · have hplt3 : p' < s.q := by
        by_contra hge
        have hcase : p' = s.q ∨ p' = s.q + 1 := by omega
        rcases hcase with rfl | h1
        · exact hqcomp hp'
        · omega
      obtain ⟨e, he, he2⟩ := h.vals_complete p' hp' hpo' hplt3
      have hkeyne : e.1 ≠ s.q := by
        intro h1
        have heq : e = (s.q, p) :=
          List.inj_on_of_nodup_map h.keys_nodup he hqmem (by rw [h1])
        rw [heq] at he2
        exact hpp he2.symm
      exact ⟨e, List.mem_cons_of_mem _ (mem_dErase.mpr ⟨he, hkeyne⟩), he2⟩
  case cover =>
    intro e he m hm1 hm2 hm3 hm4
    rcases List.mem_cons.mp he with rfl | he'
    · have hm1' : p * p ≤ m := hm1
      have hm2' : m < p + s.q + k * p := hm2
      have hm3' : p ∣ m := hm3
      by_cases hmq : m < s.q + 2
      · exact Or.inl hmq
      · right
        have hmgt : s.q < m := by omega
        obtain ⟨j, hj⟩ : p ∣ m - s.q := Nat.dvd_sub' hm3' hpdvd'
        have hjne : j ≠ 0 := by
          intro h0
          rw [h0, Nat.mul_zero] at hj
          omega
        obtain ⟨j', rfl⟩ : ∃ j', j = j' + 1 := ⟨j - 1, by omega⟩
        have hmeq : m = p + s.q + j' * p := by
          have hexp : p * (j' + 1) = j' * p + p := by ring
          rw [hexp] at hj
          omega
        have hjk : j' < k := by
          by_contra hge
          have hge' : k ≤ j' := by omega
          have hmul : k * p ≤ j' * p := Nat.mul_le_mul_right p hge'
          omega
        have hbad := hcmin j' hjk
        rw [← hmeq] at hbad
        have hlook : ¬ dLookup (dErase s.D s.q) m = none := by
          intro hnone
          exact hbad ⟨hnone, hm4⟩
        rcases hlkm : dLookup (dErase s.D s.q) m with _ | v
        · exact absurd hlkm hlook
        · exact ⟨(m, v), List.mem_cons_of_mem _ (dLookup_eq_some hlkm), rfl⟩
    · obtain ⟨heD, hneq⟩ := mem_dErase.mp he'
      rcases h.cover e heD m hm1 hm2 hm3 hm4 with h1 | ⟨e', he'', he1⟩
      · exact Or.inl (by omega)
      · by_cases hmq : e'.1 = s.q
        · left
          omega
        · right
          exact ⟨e', List.mem_cons_of_mem _ (mem_dErase.mpr ⟨he'', hmq⟩), he1⟩
  case out_mem =>
    intro x
    rw [h.out_mem x]
    constructor
    · rintro ⟨hp', hlt2⟩
      exact ⟨hp', by omega⟩
    · rintro ⟨hp', hlt2⟩
      refine ⟨hp', ?_⟩
      by_contra hge
      have hcase : x = s.q ∨ x = s.q + 1 := by omega
      rcases hcase with rfl | h1
      · exact hqcomp hp'
      · rcases hp'.eq_two_or_odd with h2 | h2 <;> omega
  case out_sorted => exact h.out_sorted

theorem sinv_init : SInv sieveInit := by
  apply SInv.mk'
  case q_odd => rfl
  case q_ge => exact le_refl 3
  case keys_nodup => exact List.nodup_nil
  case vals_nodup => exact List.nodup_nil
  case entry_inv =>
    intro e he
    exact absurd he (List.not_mem_nil e)
  case vals_complete =>
    intro p hp hpo hplt
    have := hp.two_le
    omega
  case cover =>
    intro e he
    exact absurd he (List.not_mem_nil e)
  case out_mem =>
    intro x
    rw [List.mem_singleton]
    constructor
    · rintro rfl
      exact ⟨Nat.prime_two, by omega⟩
    · rintro ⟨hp, hlt⟩
      have := hp.two_le
      omega
  case out_sorted => simp

theorem sinv_step {s : SieveState} (h : SInv s) : SInv (sieveStep s) := by
  rcases hlk : dLookup s.D s.q with _ | p
  · exact sinv_step_none h hlk
  · exact sinv_step_some h hlk

theorem sinv_run : ∀ k, SInv (sieveRun k)
  | 0 => sinv_init
  | k + 1 => sinv_step (sinv_run k)

theorem sieveStep_q (s : SieveState) : (sieveStep s).q = s.q + 2 := by
  unfold sieveStep
  rcases dLookup s.D s.q with _ | p <;> rfl

theorem sieveRun_q : ∀ k, (sieveRun k).q = 3 + 2 * k
  | 0 => rfl
  | k + 1 => by
    show (sieveStep (sieveRun k)).q = 3 + 2 * (k + 1)
    rw [sieveStep_q, sieveRun_q k]
    ring

/-- Membership in the take-while of a strictly increasing list. -/
theorem mem_takeWhile_lt {L : List Nat} (hs : L.Sorted (· < ·)) (n x : Nat) :
    x ∈ L.takeWhile (fun p => decide (p < n)) ↔ x ∈ L ∧ x < n := by
  induction L with
  | nil => simp
  | cons a L ih =>
    rw [List.sorted_cons] at hs
    obtain ⟨hall, hsort⟩ := hs
    by_cases ha : a < n
    · rw [List.takeWhile_cons_of_pos (by simpa using ha)]
      rw [List.mem_cons, List.mem_cons, ih hsort]
      constructor
      · rintro (rfl | ⟨hx, hxn⟩)
        · exact ⟨Or.inl rfl, ha⟩
        · exact ⟨Or.inr hx, hxn⟩
      · rintro ⟨rfl | hx, hxn⟩
        · exact Or.inl rfl
        · exact Or.inr ⟨hx, hxn⟩
    · rw [List.takeWhile_cons_of_neg (by simpa using ha)]
      simp only [List.not_mem_nil, false_iff]
      rintro ⟨hx, hxn⟩
      rcases List.mem_cons.mp hx with rfl | hx'
      · exact ha hxn
      · have := hall x hx'
        omega

theorem get_primes_sieve_mem (n x : Nat) :
    x ∈ get_primes_sieve n ↔ Nat.Prime x ∧ x < n := by
  have h := sinv_run n
  have hq := sieveRun_q n
  unfold get_primes_sieve
  rw [mem_takeWhile_lt h.out_sorted, h.out_mem x]
  constructor
  · rintro ⟨⟨hp, _⟩, hlt⟩
    exact ⟨hp, hlt⟩
  · rintro ⟨hp, hlt⟩
    exact ⟨⟨hp, by omega⟩, hlt⟩

theorem get_primes_sieve_sorted (n : Nat) :
    (get_primes_sieve n).Sorted (· < ·) :=
  List.Pairwise.sublist (List.takeWhile_sublist _) (sinv_run n).out_sorted

theorem get_primes_sieve_nil {n : Nat} (hn : n ≤ 2) : get_primes_sieve n = [] := by
  rw [List.eq_nil_iff_forall_not_mem]
  intro x hx
  rw [get_primes_sieve_mem] at hx
  have := hx.1.two_le
  omega

/-- C2: for every `n`, `get_primes_sieve n` returns exactly the strictly
increasing list of all primes `p < n`: every element is prime, the list is
strictly increasing, no element is `≥ n`, no prime below `n` is missing, and
for every `n ≤ 2` the returned list is empty. -/
theorem claim_C2_bounded_primes (n : Nat) :
    (∀ x ∈ get_primes_sieve n, Nat.Prime x) ∧
      (get_primes_sieve n).Sorted (· < ·) ∧
      (∀ x ∈ get_primes_sieve n, x < n) ∧
      (∀ x, Nat.Prime x → x < n → x ∈ get_primes_sieve n) ∧
      (n ≤ 2 → get_primes_sieve n = []) :=
  ⟨fun x hx => ((get_primes_sieve_mem n x).mp hx).1,
   get_primes_sieve_sorted n,
   fun x hx => ((get_primes_sieve_mem n x).mp hx).2,
   fun x hp hlt => (get_primes_sieve_mem n x).mpr ⟨hp, hlt⟩,
   fun hn => get_primes_sieve_nil hn⟩

/-- C2 (witness): at `n = 10` the primes 2 and 7 are produced; at `n = 2` the
list is empty. -/
theorem claim_C2_witness :
    2 ∈ get_primes_sieve 10 ∧ 7 ∈ get_primes_sieve 10 ∧
      get_primes_sieve 2 = [] :=
  ⟨(claim_C2_bounded_primes 10).2.2.2.1 2 (by norm_num) (by norm_num),
   (claim_C2_bounded_primes 10).2.2.2.1 7 (by norm_num) (by norm_num),
   (claim_C2_bounded_primes 2).2.2.2.2 (by norm_num)⟩

/-- C6: for every bound `n > 2` and every possible outcome of the two random
index draws (any indices below the prime-list length), `get_semiprime n`
returns `N = p·q` with `p`, `q` (not necessarily distinct) primes below `n`;
consequently `N` is composite and `N ≥ 4`. -/
theorem claim_C6_semiprime (n i j : Nat) (hn : 2 < n)
    (hi : i < (get_primes_sieve n).length)
    (hj : j < (get_primes_sieve n).length) :
    ∃ p q, get_semiprime n i j = some (p * q) ∧ Nat.Prime p ∧ Nat.Prime q ∧
      p < n ∧ q < n ∧ ¬ Nat.Prime (p * q) ∧ 4 ≤ p * q := by
  have hpmem := (get_primes_sieve_mem n _).mp (List.get_mem _ i hi)
  have hqmem := (get_primes_sieve_mem n _).mp (List.get_mem _ j hj)
  have h2p := hpmem.1.two_le
  have h2q := hqmem.1.two_le
  refine ⟨(get_primes_sieve n).get ⟨i, hi⟩, (get_primes_sieve n).get ⟨j, hj⟩,
    ?_, hpmem.1, hqmem.1, hpmem.2, hqmem.2, ?_, ?_⟩
  · show get_semiprime n i j = _
    unfold get_semiprime
    rw [dif_pos ⟨hi, hj⟩]
  · intro hP
    rcases Nat.Prime.eq_one_or_self_of_dvd hP _ (dvd_mul_right _ _) with h1 | h1
    · omega
    · have h1' : (get_primes_sieve n).get ⟨i, hi⟩ * 1 =
          (get_primes_sieve n).get ⟨i, hi⟩ * (get_primes_sieve n).get ⟨j, hj⟩ := by
        rw [Nat.mul_one]
        exact h1
      have := Nat.eq_of_mul_eq_mul_left (by omega) h1'
      omega
  · calc 4 = 2 * 2 := by norm_num
      _ ≤ _ := Nat.mul_le_mul h2p h2q

/-- C6 (witness): at `n = 5` with index draws 0 and 1, the product of
`get_primes_sieve 5 = [2, 3]`'s entries is the semiprime 6. -/
theorem claim_C6_witness :
    ∃ p q, get_semiprime 5 0 1 = some (p * q) ∧ Nat.Prime p ∧ Nat.Prime q ∧
      p < 5 ∧ q < 5 ∧ ¬ Nat.Prime (p * q) ∧ 4 ≤ p * q :=
  claim_C6_semiprime 5 0 1 (by decide) (by decide) (by decide)

/-- C7: for every `n ≤ 2` (where the bounded prime list is empty),
`get_semiprime n` signals an error (the guard fails, modelling `randrange(0)`
raising `ValueError`) rather than indexing into the empty list. -/
theorem claim_C7_invalid_bound (n i j : Nat) (hn : n ≤ 2) :
    get_semiprime n i j = none := by
  have hnil := get_primes_sieve_nil hn
  unfold get_semiprime
  rw [dif_neg]
  rw [hnil]
  simp

/-- C7 (witness): at `n = 2`. -/
theorem claim_C7_witness : get_semiprime 2 0 0 = none :=
  claim_C7_invalid_bound 2 0 0 (by decide)

/-- The invariant claimed for `sieve()`'s tracking dictionary, over a
generator state: every entry `(c ↦ p)` of `D` has `p` an odd prime already
yielded and `c` an odd composite multiple of `p` with `c ≥ q`, and each odd
prime yielded so far is the value of exactly one entry of `D`. -/
def C10Inv (s : SieveState) : Prop :=
  (∀ e ∈ s.D, Nat.Prime e.2 ∧ e.2 % 2 = 1 ∧ e.2 ∈ s.out ∧
      e.2 ∣ e.1 ∧ e.1 % 2 = 1 ∧ ¬ Nat.Prime e.1 ∧ 1 < e.1 ∧ s.q ≤ e.1) ∧
    ∀ p, Nat.Prime p → p % 2 = 1 → p ∈ s.out →
      ∃ e ∈ s.D, e.2 = p ∧ ∀ e' ∈ s.D, e'.2 = p → e' = e

/-- C10: each time the generator is about to test the next odd candidate `q`
(i.e. at every reachable state of the run, so the invariant is preserved by
both the prime branch and the composite branch), every entry `(c ↦ p)` of the
internal map `D` satisfies: `p` is an odd prime already yielded, `c` is an
odd composite multiple of `p` with `c ≥ q`, and each odd prime yielded so far
is the value of exactly one entry of `D`. -/
theorem claim_C10_sieve_invariant : ∀ k, C10Inv (sieveRun k) := by
  intro k
  have h := sinv_run k
  constructor
  · intro e he
    obtain ⟨h1, h2, h3, h4, h5, h6⟩ := h.entry_inv e he
    have hq3 := h.q_ge
    refine ⟨h1, h2, (h.out_mem e.2).mpr ⟨h1, h3⟩, h4, h5, ?_, by omega, h6⟩
    intro hP
    have h2p := h1.two_le
    rcases Nat.Prime.eq_one_or_self_of_dvd hP e.2 h4 with hh | hh <;> omega
  · intro p hp hpo hpout
    have hplt := ((h.out_mem p).mp hpout).2
    obtain ⟨e, he, he2⟩ := h.vals_complete p hp hpo hplt
    refine ⟨e, he, he2, ?_⟩
    intro e' he' he2'
    exact List.inj_on_of_nodup_map h.vals_nodup he' he (by rw [he2', he2])

/-- C10 (witness): the invariant at the concrete reachable state after six
candidate iterations. -/
theorem claim_C10_witness : C10Inv (sieveRun 6) :=
  claim_C10_sieve_invariant 6

end QCFS
